import Mathlib

/-!
# Verification of the text alignment and diff engine

Shallow embedding of `backend/app/utils/diff_utils.py`: the normalizer
(`normalize_with_mapping`), the wildcard-aware aligner (`match_with_wildcard`,
decomposed into a single-iteration step `mww_step` and a fuel-indexed loop
`mww_loopF` whose fuel provably suffices), the merger (`merge_segments`),
and the entry point `compute_diff`.  Strings are embedded as `List Char`;
Python list indexing, slicing and `str.find`-style scans become the
corresponding total operations on lists with the exact guards of the source.
-/

namespace VoiceDiff

/-- Unicode code-point ranges of the general categories `Pc, Pd, Ps, Pe, Pi, Pf, Po`
(Unicode 14.0.0, the table consulted by the source's character classifier). -/
def punct_ranges : List (Nat × Nat) := [
  (0x21, 0x23), (0x25, 0x2A), (0x2C, 0x2F), (0x3A, 0x3B), (0x3F, 0x40), (0x5B, 0x5D),
  (0x5F, 0x5F), (0x7B, 0x7B), (0x7D, 0x7D), (0xA1, 0xA1), (0xA7, 0xA7), (0xAB, 0xAB),
  (0xB6, 0xB7), (0xBB, 0xBB), (0xBF, 0xBF), (0x37E, 0x37E), (0x387, 0x387), (0x55A, 0x55F),
  (0x589, 0x58A), (0x5BE, 0x5BE), (0x5C0, 0x5C0), (0x5C3, 0x5C3), (0x5C6, 0x5C6), (0x5F3, 0x5F4),
  (0x609, 0x60A), (0x60C, 0x60D), (0x61B, 0x61B), (0x61D, 0x61F), (0x66A, 0x66D), (0x6D4, 0x6D4),
  (0x700, 0x70D), (0x7F7, 0x7F9), (0x830, 0x83E), (0x85E, 0x85E), (0x964, 0x965), (0x970, 0x970),
  (0x9FD, 0x9FD), (0xA76, 0xA76), (0xAF0, 0xAF0), (0xC77, 0xC77), (0xC84, 0xC84), (0xDF4, 0xDF4),
  (0xE4F, 0xE4F), (0xE5A, 0xE5B), (0xF04, 0xF12), (0xF14, 0xF14), (0xF3A, 0xF3D), (0xF85, 0xF85),
  (0xFD0, 0xFD4), (0xFD9, 0xFDA), (0x104A, 0x104F), (0x10FB, 0x10FB), (0x1360, 0x1368), (0x1400, 0x1400),
  (0x166E, 0x166E), (0x169B, 0x169C), (0x16EB, 0x16ED), (0x1735, 0x1736), (0x17D4, 0x17D6), (0x17D8, 0x17DA),
  (0x1800, 0x180A), (0x1944, 0x1945), (0x1A1E, 0x1A1F), (0x1AA0, 0x1AA6), (0x1AA8, 0x1AAD), (0x1B5A, 0x1B60),
  (0x1B7D, 0x1B7E), (0x1BFC, 0x1BFF), (0x1C3B, 0x1C3F), (0x1C7E, 0x1C7F), (0x1CC0, 0x1CC7), (0x1CD3, 0x1CD3),
  (0x2010, 0x2027), (0x2030, 0x2043), (0x2045, 0x2051), (0x2053, 0x205E), (0x207D, 0x207E), (0x208D, 0x208E),
  (0x2308, 0x230B), (0x2329, 0x232A), (0x2768, 0x2775), (0x27C5, 0x27C6), (0x27E6, 0x27EF), (0x2983, 0x2998),
  (0x29D8, 0x29DB), (0x29FC, 0x29FD), (0x2CF9, 0x2CFC), (0x2CFE, 0x2CFF), (0x2D70, 0x2D70), (0x2E00, 0x2E2E),
  (0x2E30, 0x2E4F), (0x2E52, 0x2E5D), (0x3001, 0x3003), (0x3008, 0x3011), (0x3014, 0x301F), (0x3030, 0x3030),
  (0x303D, 0x303D), (0x30A0, 0x30A0), (0x30FB, 0x30FB), (0xA4FE, 0xA4FF), (0xA60D, 0xA60F), (0xA673, 0xA673),
  (0xA67E, 0xA67E), (0xA6F2, 0xA6F7), (0xA874, 0xA877), (0xA8CE, 0xA8CF), (0xA8F8, 0xA8FA), (0xA8FC, 0xA8FC),
  (0xA92E, 0xA92F), (0xA95F, 0xA95F), (0xA9C1, 0xA9CD), (0xA9DE, 0xA9DF), (0xAA5C, 0xAA5F), (0xAADE, 0xAADF),
  (0xAAF0, 0xAAF1), (0xABEB, 0xABEB), (0xFD3E, 0xFD3F), (0xFE10, 0xFE19), (0xFE30, 0xFE52), (0xFE54, 0xFE61),
  (0xFE63, 0xFE63), (0xFE68, 0xFE68), (0xFE6A, 0xFE6B), (0xFF01, 0xFF03), (0xFF05, 0xFF0A), (0xFF0C, 0xFF0F),
  (0xFF1A, 0xFF1B), (0xFF1F, 0xFF20), (0xFF3B, 0xFF3D), (0xFF3F, 0xFF3F), (0xFF5B, 0xFF5B), (0xFF5D, 0xFF5D),
  (0xFF5F, 0xFF65), (0x10100, 0x10102), (0x1039F, 0x1039F), (0x103D0, 0x103D0), (0x1056F, 0x1056F), (0x10857, 0x10857),
  (0x1091F, 0x1091F), (0x1093F, 0x1093F), (0x10A50, 0x10A58), (0x10A7F, 0x10A7F), (0x10AF0, 0x10AF6), (0x10B39, 0x10B3F),
  (0x10B99, 0x10B9C), (0x10EAD, 0x10EAD), (0x10F55, 0x10F59), (0x10F86, 0x10F89), (0x11047, 0x1104D), (0x110BB, 0x110BC),
  (0x110BE, 0x110C1), (0x11140, 0x11143), (0x11174, 0x11175), (0x111C5, 0x111C8), (0x111CD, 0x111CD), (0x111DB, 0x111DB),
  (0x111DD, 0x111DF), (0x11238, 0x1123D), (0x112A9, 0x112A9), (0x1144B, 0x1144F), (0x1145A, 0x1145B), (0x1145D, 0x1145D),
  (0x114C6, 0x114C6), (0x115C1, 0x115D7), (0x11641, 0x11643), (0x11660, 0x1166C), (0x116B9, 0x116B9), (0x1173C, 0x1173E),
  (0x1183B, 0x1183B), (0x11944, 0x11946), (0x119E2, 0x119E2), (0x11A3F, 0x11A46), (0x11A9A, 0x11A9C), (0x11A9E, 0x11AA2),
  (0x11C41, 0x11C45), (0x11C70, 0x11C71), (0x11EF7, 0x11EF8), (0x11FFF, 0x11FFF), (0x12470, 0x12474), (0x12FF1, 0x12FF2),
  (0x16A6E, 0x16A6F), (0x16AF5, 0x16AF5), (0x16B37, 0x16B3B), (0x16B44, 0x16B44), (0x16E97, 0x16E9A), (0x16FE2, 0x16FE2),
  (0x1BC9F, 0x1BC9F), (0x1DA87, 0x1DA8B), (0x1E95E, 0x1E95F)]

/-- Python's `is_punctuation(char)`: the character's Unicode general category starts with `P`. -/
def is_punctuation (c : Char) : Bool :=
  punct_ranges.any (fun p => p.1 ≤ c.toNat && c.toNat ≤ p.2)

/-- Python's `is_whitespace(char)`: `char in ' \t\n\r'`. -/
def is_whitespace (c : Char) : Bool :=
  c = ' ' || c = '\t' || c = '\n' || c = '\r'

/-- Python's `is_matchable(char)`: neither punctuation nor whitespace. -/
def is_matchable (c : Char) : Bool :=
  !is_punctuation c && !is_whitespace c

/-- The retention test of `normalize_with_mapping`: the character survives
normalization iff it is a kept wildcard or matchable. -/
def kept (keep_wildcards : Bool) (c : Char) : Bool :=
  (keep_wildcards && c = '*') || is_matchable c

/-- The loop of `normalize_with_mapping`, carrying the `enumerate` index `i`. -/
def normalizeGo (keep_wildcards : Bool) : List Char → Nat → List Char × List Nat
  | [], _ => ([], [])
  | c :: rest, i =>
    let r := normalizeGo keep_wildcards rest (i + 1)
    if keep_wildcards && c = '*' then (c :: r.1, i :: r.2)
    else if is_matchable c then (c :: r.1, i :: r.2)
    else r

/-- Python's `normalize_with_mapping(text, keep_wildcards) -> (normalized, mapping)`. -/
def normalize_with_mapping (text : List Char) (keep_wildcards : Bool) : List Char × List Nat :=
  normalizeGo keep_wildcards text 0

/-- The closure `get_trans_text(start_idx, end_idx)` of `match_with_wildcard`:
render a normalized-space span of the transcription as original-space text.
`start_idx >= len(mapping) or end_idx <= 0` returns `""`; Python's slice
`original[a:b]` is `(drop a).take (b - a)`. -/
def get_trans_text (trans_original : List Char) (trans_mapping : List Nat)
    (start_idx end_idx : Nat) : List Char :=
  if trans_mapping.length ≤ start_idx ∨ end_idx = 0 then []
  else
    let start_orig := trans_mapping.getD start_idx 0
    let end_orig :=
      if trans_mapping.length ≤ end_idx then trans_original.length
      else trans_mapping.getD end_idx 0
    (trans_original.drop start_orig).take (end_orig - start_orig)

/-- The scan `for i in range(start, stop): if s[i] == c: return i` — the count of
remaining iterations `stop - start` drives the recursion. -/
def findCharFromAux (s : List Char) (c : Char) : Nat → Nat → Option Nat
  | _, 0 => none
  | i, k + 1 => if s.getD i ' ' = c then some i else findCharFromAux s c (i + 1) k

/-- First index of `c` in `s` within `[start, stop)`. -/
def findCharFrom (s : List Char) (c : Char) (start stop : Nat) : Option Nat :=
  findCharFromAux s c start (stop - start)

/-- The reference-side scan of the mismatch branch: like `findCharFromAux` but
positions holding `'*'` are skipped (`continue`). -/
def findCharSkipWildcardAux (s : List Char) (c : Char) : Nat → Nat → Option Nat
  | _, 0 => none
  | i, k + 1 =>
    if s.getD i ' ' = '*' then findCharSkipWildcardAux s c (i + 1) k
    else if s.getD i ' ' = c then some i
    else findCharSkipWildcardAux s c (i + 1) k

/-- First index of `c` in `s` within `[start, stop)`, skipping `'*'` positions. -/
def findCharSkipWildcard (s : List Char) (c : Char) (start stop : Nat) : Option Nat :=
  findCharSkipWildcardAux s c start (stop - start)

/-- The scan `while i < len(s) and s[i] == '*': i += 1`, fuelled by `len(s) - i`. -/
def skipWildcardsAux (s : List Char) : Nat → Nat → Nat
  | i, 0 => i
  | i, k + 1 => if s.getD i ' ' = '*' then skipWildcardsAux s (i + 1) k else i

/-- Index of the first non-wildcard position of `s` at or after `i`. -/
def skipWildcards (s : List Char) (i : Nat) : Nat :=
  skipWildcardsAux s i (s.length - i)

/-- The segment tag: serialized `"equal" | "delete" | "insert"`. -/
inductive SegKind
  | equal
  | delete
  | insert
  deriving DecidableEq

/-- A diff segment `{"type": kind, "text": text}`. -/
structure Segment where
  kind : SegKind
  text : List Char
  deriving DecidableEq

/-- The guarded emission `if text: result.append({"type": k, "text": text})`
used throughout `match_with_wildcard`. -/
def emitIf (k : SegKind) (t : List Char) : List Segment :=
  if t = [] then [] else [⟨k, t⟩]

/-- Outcome of one iteration of the `while` loop of `match_with_wildcard`:
either `break` with some emitted segments, or continue at new cursors. -/
inductive StepRes
  | done (emit : List Segment)
  | cont (emit : List Segment) (ref_idx trans_idx : Nat)
  deriving DecidableEq

/-- One iteration of the `while ref_idx < ref_len or trans_idx < trans_len`
loop of `match_with_wildcard`, translated branch for branch from the source. -/
def mww_step (rn tn trans_original : List Char) (tm : List Nat) (ri ti : Nat) : StepRes :=
  if rn.length ≤ ri then
    StepRes.done (emitIf .insert (get_trans_text trans_original tm ti tn.length))
  else if tn.length ≤ ti then
    StepRes.done (emitIf .delete ((rn.drop ri).filter (fun c => decide (c ≠ '*'))))
  else
    let ref_char := rn.getD ri ' '
    if ref_char = '*' then
      let nri := skipWildcards rn (ri + 1)
      if rn.length ≤ nri then
        StepRes.done (emitIf .equal (get_trans_text trans_original tm ti tn.length))
      else
        match findCharFrom tn (rn.getD nri ' ') ti tn.length with
        | none =>
          StepRes.cont (emitIf .equal (get_trans_text trans_original tm ti tn.length)) nri tn.length
        | some fi =>
          if fi = ti then StepRes.cont [] nri ti
          else StepRes.cont (emitIf .equal (get_trans_text trans_original tm ti fi)) nri fi
    else
      let trans_char := tn.getD ti ' '
      if ref_char = trans_char then
        StepRes.cont (emitIf .equal (get_trans_text trans_original tm ti (ti + 1))) (ri + 1) (ti + 1)
      else
        match findCharFrom tn ref_char ti (min (ti + 10) tn.length),
              findCharSkipWildcard rn trans_char ri (min (ri + 10) rn.length) with
        | some fa, none =>
          StepRes.cont (emitIf .insert (get_trans_text trans_original tm ti fa)) ri fa
        | some fa, some fb =>
          if fa - ti ≤ fb - ri then
            StepRes.cont (emitIf .insert (get_trans_text trans_original tm ti fa)) ri fa
          else
            StepRes.cont
              (emitIf .delete (((rn.drop ri).take (fb - ri)).filter (fun c => decide (c ≠ '*')))) fb ti
        | none, some fb =>
          StepRes.cont
            (emitIf .delete (((rn.drop ri).take (fb - ri)).filter (fun c => decide (c ≠ '*')))) fb ti
        | none, none =>
          StepRes.cont
            (Segment.mk .delete [ref_char] ::
              emitIf .insert (get_trans_text trans_original tm ti (ti + 1))) (ri + 1) (ti + 1)

/-- The cursor loop of `match_with_wildcard`, indexed by fuel.  Each `cont`
step strictly increases `ref_idx + trans_idx` (`mww_step_progress`), so fuel
`ref_len + trans_len + 1` from `(0, 0)` is never exhausted
(`mww_loopF_fuel_irrel`). -/
def mww_loopF (rn tn trans_original : List Char) (tm : List Nat) :
    Nat → Nat → Nat → List Segment
  | 0, _, _ => []
  | fuel + 1, ri, ti =>
    if ri < rn.length ∨ ti < tn.length then
      match mww_step rn tn trans_original tm ri ti with
      | .done e => e
      | .cont e ri2 ti2 => e ++ mww_loopF rn tn trans_original tm fuel ri2 ti2
    else []

/-- The merge pass at the end of `match_with_wildcard`; the accumulator holds
the merged list in reverse. -/
def merge_segmentsAux : List Segment → List Segment → List Segment
  | acc, [] => acc.reverse
  | acc, seg :: rest =>
    if seg.text = [] then merge_segmentsAux acc rest
    else
      match acc with
      | [] => merge_segmentsAux [seg] rest
      | prev :: acc2 =>
        if prev.kind = seg.kind then
          merge_segmentsAux (Segment.mk prev.kind (prev.text ++ seg.text) :: acc2) rest
        else
          merge_segmentsAux (seg :: prev :: acc2) rest

/-- Merge consecutive segments of the same type, dropping empty-text segments. -/
def merge_segments (l : List Segment) : List Segment :=
  merge_segmentsAux [] l

/-- Python's `match_with_wildcard(ref_norm, trans_norm, trans_original, trans_mapping)`. -/
def match_with_wildcard (ref_norm trans_norm trans_original : List Char)
    (trans_mapping : List Nat) : List Segment :=
  merge_segments
    (mww_loopF ref_norm trans_norm trans_original trans_mapping
      (ref_norm.length + trans_norm.length + 1) 0 0)

/-- Entry point `compute_diff(reference, transcription)`. -/
def compute_diff (reference transcription : List Char) : List Segment :=
  if reference = [] ∨ transcription = [] then []
  else
    let rp := normalize_with_mapping reference true
    let tp := normalize_with_mapping transcription false
    if rp.1 = [] ∧ tp.1 = [] then []
    else if rp.1 = [] then [⟨.insert, transcription⟩]
    else if tp.1 = [] then
      let ref_no_wildcard := rp.1.filter (fun c => decide (c ≠ '*'))
      if ref_no_wildcard = [] then [] else [⟨.delete, ref_no_wildcard⟩]
    else match_with_wildcard rp.1 tp.1 transcription tp.2

/-- The transcription-side output of a segment list: the concatenated `text`
of the segments whose kind is `equal` or `insert`, in order. -/
def transText (l : List Segment) : List Char :=
  (l.filterMap (fun g =>
    match g.kind with
    | .delete => none
    | _ => some g.text)).flatten

/-! ## Scan helpers: specifications of the `for`/`while` searches -/

lemma findCharFromAux_spec (s : List Char) (c : Char) :
    ∀ k i j, findCharFromAux s c i k = some j →
      i ≤ j ∧ j < i + k ∧ s.getD j ' ' = c := by
  intro k
  induction k with
  | zero => intro i j h; simp [findCharFromAux] at h
  | succ k ih =>
    intro i j h
    by_cases hc : s.getD i ' ' = c
    · simp only [findCharFromAux, if_pos hc, Option.some.injEq] at h
      subst h; exact ⟨Nat.le_refl _, by omega, hc⟩
    · simp only [findCharFromAux, if_neg hc] at h
      obtain ⟨h1, h2, h3⟩ := ih (i + 1) j h
      exact ⟨by omega, by omega, h3⟩

lemma findCharFrom_spec (s : List Char) (c : Char) (start stop j : Nat)
    (h : findCharFrom s c start stop = some j) :
    start ≤ j ∧ j < stop ∧ s.getD j ' ' = c := by
  obtain ⟨h1, h2, h3⟩ := findCharFromAux_spec s c (stop - start) start j h
  exact ⟨h1, by omega, h3⟩

lemma findCharSkipWildcardAux_spec (s : List Char) (c : Char) :
    ∀ k i j, findCharSkipWildcardAux s c i k = some j →
      i ≤ j ∧ j < i + k ∧ s.getD j ' ' = c ∧ s.getD j ' ' ≠ '*' := by
  intro k
  induction k with
  | zero => intro i j h; simp [findCharSkipWildcardAux] at h
  | succ k ih =>
    intro i j h
    by_cases hw : s.getD i ' ' = '*'
    · simp only [findCharSkipWildcardAux, if_pos hw] at h
      obtain ⟨h1, h2, h3, h4⟩ := ih (i + 1) j h
      exact ⟨by omega, by omega, h3, h4⟩
    · by_cases hc : s.getD i ' ' = c
      · simp only [findCharSkipWildcardAux, if_neg hw, if_pos hc, Option.some.injEq] at h
        subst h; exact ⟨Nat.le_refl _, by omega, hc, hw⟩
      · simp only [findCharSkipWildcardAux, if_neg hw, if_neg hc] at h
        obtain ⟨h1, h2, h3, h4⟩ := ih (i + 1) j h
        exact ⟨by omega, by omega, h3, h4⟩

lemma findCharSkipWildcard_spec (s : List Char) (c : Char) (start stop j : Nat)
    (h : findCharSkipWildcard s c start stop = some j) :
    start ≤ j ∧ j < stop ∧ s.getD j ' ' = c ∧ s.getD j ' ' ≠ '*' := by
  obtain ⟨h1, h2, h3, h4⟩ := findCharSkipWildcardAux_spec s c (stop - start) start j h
  exact ⟨h1, by omega, h3, h4⟩

lemma skipWildcardsAux_ge (s : List Char) :
    ∀ k i, i ≤ skipWildcardsAux s i k := by
  intro k
  induction k with
  | zero => intro i; exact Nat.le_refl _
  | succ k ih =>
    intro i
    by_cases hw : s.getD i ' ' = '*'
    · simp only [skipWildcardsAux, if_pos hw]
      exact Nat.le_trans (by omega) (ih (i + 1))
    · simp only [skipWildcardsAux, if_neg hw]
      omega

lemma skipWildcardsAux_le (s : List Char) :
    ∀ k i, skipWildcardsAux s i k ≤ i + k := by
  intro k
  induction k with
  | zero => intro i; exact Nat.le_of_eq rfl
  | succ k ih =>
    intro i
    by_cases hw : s.getD i ' ' = '*'
    · simp only [skipWildcardsAux, if_pos hw]
      exact Nat.le_trans (ih (i + 1)) (by omega)
    · simp only [skipWildcardsAux, if_neg hw]; omega

lemma skipWildcardsAux_wild (s : List Char) :
    ∀ k i j, i ≤ j → j < skipWildcardsAux s i k → s.getD j ' ' = '*' := by
  intro k
  induction k with
  | zero => intro i j hij h; simp only [skipWildcardsAux] at h; omega
  | succ k ih =>
    intro i j hij h
    by_cases hw : s.getD i ' ' = '*'
    · simp only [skipWildcardsAux, if_pos hw] at h
      rcases Nat.eq_or_lt_of_le hij with rfl | hlt
      · exact hw
      · exact ih (i + 1) j hlt h
    · simp only [skipWildcardsAux, if_neg hw] at h; omega

lemma skipWildcardsAux_stop (s : List Char) :
    ∀ k i, skipWildcardsAux s i k < i + k → s.getD (skipWildcardsAux s i k) ' ' ≠ '*' := by
  intro k
  induction k with
  | zero => intro i h; simp only [skipWildcardsAux] at h ⊢; omega
  | succ k ih =>
    intro i h
    by_cases hw : s.getD i ' ' = '*'
    · simp only [skipWildcardsAux, if_pos hw] at h ⊢
      exact ih (i + 1) (by omega)
    · simp only [skipWildcardsAux, if_neg hw] at h ⊢; exact hw

lemma skipWildcards_ge (s : List Char) (i : Nat) : i ≤ skipWildcards s i :=
  skipWildcardsAux_ge s (s.length - i) i

lemma skipWildcards_le (s : List Char) (i : Nat) (h : i ≤ s.length) :
    skipWildcards s i ≤ s.length := by
  have := skipWildcardsAux_le s (s.length - i) i
  unfold skipWildcards; omega

lemma skipWildcards_wild (s : List Char) (i j : Nat) (hij : i ≤ j)
    (h : j < skipWildcards s i) : s.getD j ' ' = '*' :=
  skipWildcardsAux_wild s (s.length - i) i j hij h

lemma skipWildcards_stop (s : List Char) (i : Nat)
    (h : skipWildcards s i < s.length) : s.getD (skipWildcards s i) ' ' ≠ '*' := by
  unfold skipWildcards at h ⊢
  by_cases hi : i ≤ s.length
  · exact skipWildcardsAux_stop s (s.length - i) i (by omega)
  · exfalso
    have hz : s.length - i = 0 := by omega
    rw [hz] at h
    simp only [skipWildcardsAux] at h
    omega

/-! ## Slice helpers: `get_trans_text` as Python slicing -/

lemma drop_take_append (l : List Char) (x y z : Nat) (hxy : x ≤ y) (hyz : y ≤ z) :
    (l.drop x).take (y - x) ++ (l.drop y).take (z - y) = (l.drop x).take (z - x) := by
  have h1 : l.drop y = (l.drop x).drop (y - x) := by
    rw [List.drop_drop]; congr 1; omega
  rw [h1, ← List.take_add]
  congr 1; omega

lemma pairwise_getD_lt (tm : List Nat) (hmono : tm.Pairwise (· < ·)) (a b : Nat)
    (hab : a < b) (hb : b < tm.length) : tm.getD a 0 < tm.getD b 0 := by
  rw [List.getD_eq_getElem tm 0 (by omega), List.getD_eq_getElem tm 0 hb]
  exact List.pairwise_iff_getElem.mp hmono a b (by omega) hb hab

lemma pairwise_getD_le (tm : List Nat) (hmono : tm.Pairwise (· < ·)) (a b : Nat)
    (hab : a ≤ b) (hb : b < tm.length) : tm.getD a 0 ≤ tm.getD b 0 := by
  rcases Nat.eq_or_lt_of_le hab with rfl | h
  · exact Nat.le_refl _
  · exact Nat.le_of_lt (pairwise_getD_lt tm hmono a b h hb)

lemma getD_mem_of_lt (tm : List Nat) (a : Nat) (h : a < tm.length) : tm.getD a 0 ∈ tm := by
  rw [List.getD_eq_getElem tm 0 h]
  exact List.getElem_mem ..

lemma get_trans_text_of_le (torig : List Char) (tm : List Nat) (s e : Nat)
    (h : tm.length ≤ s) : get_trans_text torig tm s e = [] := by
  unfold get_trans_text
  rw [if_pos (Or.inl h)]

lemma get_trans_text_append (torig : List Char) (tm : List Nat) (a b c : Nat)
    (hab : a ≤ b) (hbc : b ≤ c)
    (hmono : tm.Pairwise (· < ·)) (hbound : ∀ j ∈ tm, j < torig.length) :
    get_trans_text torig tm a b ++ get_trans_text torig tm b c = get_trans_text torig tm a c := by
  unfold get_trans_text
  by_cases ha : tm.length ≤ a
  · rw [if_pos (Or.inl ha), if_pos (Or.inl (by omega)), if_pos (Or.inl ha)]
    rfl
  · by_cases hb0 : b = 0
    · have ha0 : a = 0 := by omega
      subst ha0; subst hb0
      rw [if_pos (Or.inr rfl)]
      rw [List.nil_append]
    · by_cases hbl : tm.length ≤ b
      · have hcl : tm.length ≤ c := by omega
        have hGab : ¬(tm.length ≤ a ∨ b = 0) := by omega
        have hGac : ¬(tm.length ≤ a ∨ c = 0) := by omega
        rw [if_neg hGab, if_pos (Or.inl hbl), if_neg hGac]
        simp only [if_pos hbl, if_pos hcl, List.append_nil]
      · have hc0 : c ≠ 0 := by omega
        have hGab : ¬(tm.length ≤ a ∨ b = 0) := by omega
        have hGbc : ¬(tm.length ≤ b ∨ c = 0) := by omega
        have hGac : ¬(tm.length ≤ a ∨ c = 0) := by omega
        rw [if_neg hGab, if_neg hGbc, if_neg hGac]
        simp only [if_neg (show ¬ tm.length ≤ b by omega)]
        by_cases hcl : tm.length ≤ c
        · simp only [if_pos hcl]
          exact drop_take_append torig _ _ _ (pairwise_getD_le tm hmono a b hab (by omega))
            (Nat.le_of_lt (hbound _ (getD_mem_of_lt tm b (by omega))))
        · simp only [if_neg hcl]
          exact drop_take_append torig _ _ _ (pairwise_getD_le tm hmono a b hab (by omega))
            (pairwise_getD_le tm hmono b c hbc (by omega))

lemma get_trans_text_ne_nil (torig : List Char) (tm : List Nat)
    (hmono : tm.Pairwise (· < ·)) (hbound : ∀ j ∈ tm, j < torig.length)
    (s e : Nat) (hs : s < tm.length) (hse : s < e) :
    get_trans_text torig tm s e ≠ [] := by
  unfold get_trans_text
  rw [if_neg (by omega)]
  apply List.ne_nil_of_length_pos
  rw [List.length_take, List.length_drop]
  have h1 : tm.getD s 0 < torig.length := hbound _ (getD_mem_of_lt tm s hs)
  by_cases hel : tm.length ≤ e
  · rw [if_pos hel]; omega
  · rw [if_neg hel]
    have h2 : tm.getD s 0 < tm.getD e 0 :=
      pairwise_getD_lt tm hmono s e hse (by omega)
    omega

lemma get_trans_text_full (torig : List Char) (tm : List Nat) (h0 : 0 < tm.length) :
    get_trans_text torig tm 0 tm.length = torig.drop (tm.getD 0 0) := by
  unfold get_trans_text
  rw [if_neg (by omega), if_pos (Nat.le_refl _)]
  exact List.take_of_length_le (by rw [List.length_drop])

/-! ## Normalizer invariants -/

lemma kept_first (kw : Bool) (c : Char) (h : (kw && decide (c = '*')) = true) :
    kept kw c = true := by
  simp only [kept, h, Bool.true_or]

lemma kept_second (kw : Bool) (c : Char) (h : is_matchable c = true) :
    kept kw c = true := by
  simp only [kept, h, Bool.or_true]

lemma kept_neither (kw : Bool) (c : Char) (h1 : ¬(kw && decide (c = '*')) = true)
    (h2 : ¬is_matchable c = true) : kept kw c = false := by
  simp only [Bool.not_eq_true] at h1 h2
  simp only [kept, h1, h2, Bool.or_false]

lemma normalizeGo_fst (kw : Bool) :
    ∀ (l : List Char) (i : Nat), (normalizeGo kw l i).1 = l.filter (kept kw) := by
  intro l
  induction l with
  | nil => intro i; rfl
  | cons c rest ih =>
    intro i
    by_cases h1 : kw && c = '*'
    · simp only [normalizeGo, if_pos h1]
      rw [List.filter_cons_of_pos (kept_first kw c h1), ih (i + 1)]
    · by_cases h2 : is_matchable c
      · simp only [normalizeGo, if_neg h1, if_pos h2]
        rw [List.filter_cons_of_pos (kept_second kw c h2), ih (i + 1)]
      · simp only [normalizeGo, if_neg h1, if_neg h2]
        rw [List.filter_cons_of_neg (by simp [kept_neither kw c h1 h2]), ih (i + 1)]

lemma normalizeGo_len (kw : Bool) :
    ∀ (l : List Char) (i : Nat), (normalizeGo kw l i).2.length = (normalizeGo kw l i).1.length := by
  intro l
  induction l with
  | nil => intro i; rfl
  | cons c rest ih =>
    intro i
    by_cases h1 : kw && c = '*'
    · simp only [normalizeGo, if_pos h1, List.length_cons]; rw [ih (i + 1)]
    · by_cases h2 : is_matchable c
      · simp only [normalizeGo, if_neg h1, if_pos h2, List.length_cons]; rw [ih (i + 1)]
      · simp only [normalizeGo, if_neg h1, if_neg h2]; exact ih (i + 1)

lemma normalizeGo_mem_ge (kw : Bool) :
    ∀ (l : List Char) (i : Nat), ∀ j ∈ (normalizeGo kw l i).2, i ≤ j := by
  intro l
  induction l with
  | nil => intro i j h; simp [normalizeGo] at h
  | cons c rest ih =>
    intro i j h
    by_cases h1 : kw && c = '*'
    · simp only [normalizeGo, if_pos h1, List.mem_cons] at h
      rcases h with rfl | h
      · exact Nat.le_refl _
      · exact Nat.le_trans (by omega) (ih (i + 1) j h)
    · by_cases h2 : is_matchable c
      · simp only [normalizeGo, if_neg h1, if_pos h2, List.mem_cons] at h
        rcases h with rfl | h
        · exact Nat.le_refl _
        · exact Nat.le_trans (by omega) (ih (i + 1) j h)
      · simp only [normalizeGo, if_neg h1, if_neg h2] at h
        exact Nat.le_trans (by omega) (ih (i + 1) j h)

lemma normalizeGo_mem_lt (kw : Bool) :
    ∀ (l : List Char) (i : Nat), ∀ j ∈ (normalizeGo kw l i).2, j < i + l.length := by
  intro l
  induction l with
  | nil => intro i j h; simp [normalizeGo] at h
  | cons c rest ih =>
    intro i j h
    by_cases h1 : kw && c = '*'
    · simp only [normalizeGo, if_pos h1, List.mem_cons] at h
      rcases h with rfl | h
      · simp only [List.length_cons]; omega
      · have := ih (i + 1) j h; simp only [List.length_cons]; omega
    · by_cases h2 : is_matchable c
      · simp only [normalizeGo, if_neg h1, if_pos h2, List.mem_cons] at h
        rcases h with rfl | h
        · simp only [List.length_cons]; omega
        · have := ih (i + 1) j h; simp only [List.length_cons]; omega
      · simp only [normalizeGo, if_neg h1, if_neg h2] at h
        have := ih (i + 1) j h; simp only [List.length_cons]; omega

lemma normalizeGo_pairwise (kw : Bool) :
    ∀ (l : List Char) (i : Nat), (normalizeGo kw l i).2.Pairwise (· < ·) := by
  intro l
  induction l with
  | nil => intro i; simp [normalizeGo]
  | cons c rest ih =>
    intro i
    have hge := normalizeGo_mem_ge kw rest (i + 1)
    by_cases h1 : kw && c = '*'
    · simp only [normalizeGo, if_pos h1]
      exact List.pairwise_cons.mpr ⟨fun j hj => by have := hge j hj; omega, ih (i + 1)⟩
    · by_cases h2 : is_matchable c
      · simp only [normalizeGo, if_neg h1, if_pos h2]
        exact List.pairwise_cons.mpr ⟨fun j hj => by have := hge j hj; omega, ih (i + 1)⟩
      · simp only [normalizeGo, if_neg h1, if_neg h2]
        exact ih (i + 1)

lemma normalizeGo_mapback (kw : Bool) :
    ∀ (l : List Char) (i : Nat),
      (normalizeGo kw l i).2.map (fun j => l.getD (j - i) ' ') = (normalizeGo kw l i).1 := by
  intro l
  induction l with
  | nil => intro i; rfl
  | cons c rest ih =>
    intro i
    have hge := normalizeGo_mem_ge kw rest (i + 1)
    have htail :
        (normalizeGo kw rest (i + 1)).2.map (fun j => (c :: rest).getD (j - i) ' ') =
          (normalizeGo kw rest (i + 1)).1 := by
      rw [show (normalizeGo kw rest (i + 1)).2.map (fun j => (c :: rest).getD (j - i) ' ') =
            (normalizeGo kw rest (i + 1)).2.map (fun j => rest.getD (j - (i + 1)) ' ') from
          List.map_congr_left (fun j hj => by
            have h1 := hge j hj
            have h2 : j - i = (j - (i + 1)) + 1 := by omega
            rw [h2, List.getD_cons_succ])]
      exact ih (i + 1)
    by_cases h1 : kw && c = '*'
    · simp only [normalizeGo, if_pos h1, List.map_cons, Nat.sub_self, List.getD_cons_zero]
      rw [htail]
    · by_cases h2 : is_matchable c
      · simp only [normalizeGo, if_neg h1, if_pos h2, List.map_cons, Nat.sub_self,
          List.getD_cons_zero]
        rw [htail]
      · simp only [normalizeGo, if_neg h1, if_neg h2]
        exact htail

lemma normalize_fst (t : List Char) (kw : Bool) :
    (normalize_with_mapping t kw).1 = t.filter (kept kw) :=
  normalizeGo_fst kw t 0

lemma normalize_len (t : List Char) (kw : Bool) :
    (normalize_with_mapping t kw).2.length = (normalize_with_mapping t kw).1.length :=
  normalizeGo_len kw t 0

lemma normalize_pairwise (t : List Char) (kw : Bool) :
    (normalize_with_mapping t kw).2.Pairwise (· < ·) :=
  normalizeGo_pairwise kw t 0

lemma normalize_bound (t : List Char) (kw : Bool) :
    ∀ j ∈ (normalize_with_mapping t kw).2, j < t.length := by
  intro j hj
  have := normalizeGo_mem_lt kw t 0 j hj
  omega

lemma normalize_mapback (t : List Char) (kw : Bool) :
    (normalize_with_mapping t kw).2.map (fun j => t.getD j ' ') =
      (normalize_with_mapping t kw).1 := by
  have h := normalizeGo_mapback kw t 0
  simpa using h

/-! ## `transText` and the merger -/

lemma transText_nil : transText [] = [] := rfl

lemma transText_append (a b : List Segment) :
    transText (a ++ b) = transText a ++ transText b := by
  unfold transText
  rw [List.filterMap_append, List.flatten_append]

lemma transText_cons (g : Segment) (l : List Segment) :
    transText (g :: l) = transText [g] ++ transText l := by
  rw [show g :: l = [g] ++ l from rfl, transText_append]

lemma transText_single (k : SegKind) (t : List Char) (hk : k ≠ SegKind.delete) :
    transText [⟨k, t⟩] = t := by
  cases k with
  | delete => exact absurd rfl hk
  | equal => simp [transText]
  | insert => simp [transText]

lemma transText_single_delete (t : List Char) :
    transText [⟨SegKind.delete, t⟩] = [] := rfl

lemma transText_emitIf (k : SegKind) (t : List Char) (hk : k ≠ SegKind.delete) :
    transText (emitIf k t) = t := by
  unfold emitIf
  by_cases ht : t = []
  · rw [if_pos ht, ht]; rfl
  · rw [if_neg ht]; exact transText_single k t hk

lemma transText_emitIf_delete (t : List Char) :
    transText (emitIf SegKind.delete t) = [] := by
  unfold emitIf
  by_cases ht : t = []
  · rw [if_pos ht]; rfl
  · rw [if_neg ht]; rfl

lemma merge_segmentsAux_transText :
    ∀ (l acc : List Segment),
      transText (merge_segmentsAux acc l) = transText acc.reverse ++ transText l := by
  intro l
  induction l with
  | nil => intro acc; simp [merge_segmentsAux, transText_nil]
  | cons seg rest ih =>
    intro acc
    by_cases hempty : seg.text = []
    · simp only [merge_segmentsAux, if_pos hempty]
      rw [ih acc, transText_cons]
      have hz : transText [seg] = [] := by
        obtain ⟨k, t⟩ := seg
        cases k <;> simp_all [transText]
      rw [hz, List.nil_append]
    · cases acc with
      | nil =>
        simp only [merge_segmentsAux, if_neg hempty]
        rw [ih [seg], transText_cons]
        simp [transText_nil]
      | cons prev acc2 =>
        by_cases hkind : prev.kind = seg.kind
        · simp only [merge_segmentsAux, if_neg hempty, if_pos hkind]
          rw [ih (Segment.mk prev.kind (prev.text ++ seg.text) :: acc2)]
          rw [List.reverse_cons, List.reverse_cons, transText_append, transText_append,
            transText_cons seg]
          have hkey : transText [Segment.mk prev.kind (prev.text ++ seg.text)] =
              transText [prev] ++ transText [seg] := by
            obtain ⟨pk, pt⟩ := prev
            obtain ⟨sk, st⟩ := seg
            simp only at hkind
            subst hkind
            cases pk <;> simp [transText]
          rw [hkey]
          simp [List.append_assoc]
        · simp only [merge_segmentsAux, if_neg hempty, if_neg hkind]
          rw [ih (seg :: prev :: acc2), transText_cons seg]
          have hrev : (seg :: prev :: acc2).reverse = (prev :: acc2).reverse ++ [seg] :=
            List.reverse_cons ..
          rw [hrev, transText_append]
          simp [List.append_assoc]

lemma merge_transText (l : List Segment) :
    transText (merge_segments l) = transText l := by
  have h := merge_segmentsAux_transText l []
  simpa [merge_segments, transText_nil] using h

lemma merge_segmentsAux_text_ne_nil :
    ∀ (l acc : List Segment), (∀ g ∈ acc, g.text ≠ []) →
      ∀ g ∈ merge_segmentsAux acc l, g.text ≠ [] := by
  intro l
  induction l with
  | nil =>
    intro acc hacc g hg
    simp only [merge_segmentsAux, List.mem_reverse] at hg
    exact hacc g hg
  | cons seg rest ih =>
    intro acc hacc g hg
    by_cases hempty : seg.text = []
    · simp only [merge_segmentsAux, if_pos hempty] at hg
      exact ih acc hacc g hg
    · cases acc with
      | nil =>
        simp only [merge_segmentsAux, if_neg hempty] at hg
        refine ih [seg] ?_ g hg
        intro g2 hg2
        rw [List.mem_singleton.mp hg2]
        exact hempty
      | cons prev acc2 =>
        by_cases hkind : prev.kind = seg.kind
        · simp only [merge_segmentsAux, if_neg hempty, if_pos hkind] at hg
          refine ih _ ?_ g hg
          intro g2 hg2
          rcases List.mem_cons.mp hg2 with rfl | hmem
          · have hp := hacc prev (List.mem_cons_self ..)
            intro hcontra
            rw [List.append_eq_nil] at hcontra
            exact hp hcontra.1
          · exact hacc g2 (List.mem_cons_of_mem _ hmem)
        · simp only [merge_segmentsAux, if_neg hempty, if_neg hkind] at hg
          refine ih _ ?_ g hg
          intro g2 hg2
          rcases List.mem_cons.mp hg2 with rfl | hmem
          · exact hempty
          · exact hacc g2 hmem

lemma merge_segmentsAux_chain :
    ∀ (l acc : List Segment),
      acc.Chain' (fun x y => x.kind ≠ y.kind) →
      (merge_segmentsAux acc l).Chain' (fun x y => x.kind ≠ y.kind) := by
  intro l
  induction l with
  | nil =>
    intro acc hacc
    simp only [merge_segmentsAux]
    rw [List.chain'_reverse]
    exact hacc.imp (fun _ _ h => Ne.symm h)
  | cons seg rest ih =>
    intro acc hacc
    by_cases hempty : seg.text = []
    · simp only [merge_segmentsAux, if_pos hempty]
      exact ih acc hacc
    · cases acc with
      | nil =>
        simp only [merge_segmentsAux, if_neg hempty]
        exact ih [seg] (by simp)
      | cons prev acc2 =>
        by_cases hkind : prev.kind = seg.kind
        · simp only [merge_segmentsAux, if_neg hempty, if_pos hkind]
          refine ih _ ?_
          rcases List.chain'_cons'.mp hacc with ⟨hhead, htail⟩
          refine List.chain'_cons'.mpr ⟨?_, htail⟩
          intro y hy
          simpa using hhead y hy
        · simp only [merge_segmentsAux, if_neg hempty, if_neg hkind]
          refine ih _ ?_
          refine List.chain'_cons'.mpr ⟨?_, hacc⟩
          intro y hy
          simp only [List.head?_cons, Option.mem_def, Option.some.injEq] at hy
          rw [← hy]
          exact fun h => hkind h.symm

lemma merge_segmentsAux_of_good :
    ∀ (l acc : List Segment),
      (∀ g ∈ l, g.text ≠ []) →
      (acc.reverse ++ l).Chain' (fun x y => x.kind ≠ y.kind) →
      merge_segmentsAux acc l = acc.reverse ++ l := by
  intro l
  induction l with
  | nil => intro acc _ _; simp [merge_segmentsAux]
  | cons seg rest ih =>
    intro acc hne hchain
    have hsegne : seg.text ≠ [] := hne seg (List.mem_cons_self ..)
    cases acc with
    | nil =>
      simp only [merge_segmentsAux, if_neg hsegne]
      rw [ih [seg] (fun g hg => hne g (List.mem_cons_of_mem _ hg)) (by simpa using hchain)]
      simp
    | cons prev acc2 =>
      have hkind : prev.kind ≠ seg.kind := by
        rw [List.reverse_cons, List.append_assoc] at hchain
        have h2 := (List.chain'_append.mp hchain).2.1
        exact (List.chain'_cons.mp h2).1
      simp only [merge_segmentsAux, if_neg hsegne, if_neg hkind]
      rw [ih (seg :: prev :: acc2) (fun g hg => hne g (List.mem_cons_of_mem _ hg)) ?_]
      · simp [List.reverse_cons, List.append_assoc]
      · have : (seg :: prev :: acc2).reverse ++ rest =
            (prev :: acc2).reverse ++ seg :: rest := by
          simp [List.reverse_cons, List.append_assoc]
        rw [this]
        exact hchain

lemma merge_segments_text_ne_nil (l : List Segment) :
    ∀ g ∈ merge_segments l, g.text ≠ [] :=
  merge_segmentsAux_text_ne_nil l [] (by simp)

lemma merge_segments_chain (l : List Segment) :
    (merge_segments l).Chain' (fun x y => x.kind ≠ y.kind) :=
  merge_segmentsAux_chain l [] (by simp)

lemma merge_segments_of_good (l : List Segment)
    (h1 : ∀ g ∈ l, g.text ≠ [])
    (h2 : l.Chain' (fun x y => x.kind ≠ y.kind)) :
    merge_segments l = l := by
  have h := merge_segmentsAux_of_good l [] h1 (by simpa using h2)
  simpa [merge_segments] using h

lemma merge_segments_idem (l : List Segment) :
    merge_segments (merge_segments l) = merge_segments l :=
  merge_segments_of_good _ (merge_segments_text_ne_nil l) (merge_segments_chain l)

/-! ## Progress of the cursor loop -/

lemma mww_step_progress (rn tn torig : List Char) (tm : List Nat) (ri ti : Nat)
    (e : List Segment) (ri2 ti2 : Nat)
    (h : mww_step rn tn torig tm ri ti = StepRes.cont e ri2 ti2) :
    ri < rn.length ∧ ti < tn.length ∧ ri + ti < ri2 + ti2 ∧
      ri2 ≤ rn.length ∧ ti2 ≤ tn.length ∧ ti ≤ ti2 := by
  unfold mww_step at h
  by_cases h1 : rn.length ≤ ri
  · rw [if_pos h1] at h; exact absurd h (by simp)
  rw [if_neg h1] at h
  by_cases h2 : tn.length ≤ ti
  · rw [if_pos h2] at h; exact absurd h (by simp)
  rw [if_neg h2] at h
  by_cases hw : rn.getD ri ' ' = '*'
  · rw [if_pos hw] at h
    have hge := skipWildcards_ge rn (ri + 1)
    by_cases h3 : rn.length ≤ skipWildcards rn (ri + 1)
    · rw [if_pos h3] at h; exact absurd h (by simp)
    rw [if_neg h3] at h
    cases hf : findCharFrom tn (rn.getD (skipWildcards rn (ri + 1)) ' ') ti tn.length with
    | none =>
      simp only [hf] at h
      cases h
      exact ⟨by omega, by omega, by omega, by omega, Nat.le_refl _, by omega⟩
    | some fi =>
      simp only [hf] at h
      obtain ⟨hf1, hf2, hf3⟩ := findCharFrom_spec tn _ ti tn.length fi hf
      by_cases h4 : fi = ti
      · rw [if_pos h4] at h
        cases h
        exact ⟨by omega, by omega, by omega, by omega, by omega, Nat.le_refl _⟩
      · rw [if_neg h4] at h
        cases h
        exact ⟨by omega, by omega, by omega, by omega, by omega, hf1⟩
  · rw [if_neg hw] at h
    by_cases heq : rn.getD ri ' ' = tn.getD ti ' '
    · rw [if_pos heq] at h
      cases h
      exact ⟨by omega, by omega, by omega, by omega, by omega, by omega⟩
    · rw [if_neg heq] at h
      cases hfa : findCharFrom tn (rn.getD ri ' ') ti (min (ti + 10) tn.length) with
      | some fa =>
        obtain ⟨ha1, ha2, ha3⟩ := findCharFrom_spec tn _ ti _ fa hfa
        have hane : fa ≠ ti := by
          intro hcontra
          rw [hcontra] at ha3
          exact heq ha3.symm
        cases hfb : findCharSkipWildcard rn (tn.getD ti ' ') ri (min (ri + 10) rn.length) with
        | none =>
          simp only [hfa, hfb] at h
          cases h
          exact ⟨by omega, by omega, by omega, by omega, by omega, by omega⟩
        | some fb =>
          obtain ⟨hb1, hb2, hb3, hb4⟩ := findCharSkipWildcard_spec rn _ ri _ fb hfb
          have hbne : fb ≠ ri := by
            intro hcontra
            rw [hcontra] at hb3
            exact heq hb3
          simp only [hfa, hfb] at h
          by_cases h5 : fa - ti ≤ fb - ri
          · rw [if_pos h5] at h
            cases h
            exact ⟨by omega, by omega, by omega, by omega, by omega, by omega⟩
          · rw [if_neg h5] at h
            cases h
            exact ⟨by omega, by omega, by omega, by omega, by omega, Nat.le_refl _⟩
      | none =>
        cases hfb : findCharSkipWildcard rn (tn.getD ti ' ') ri (min (ri + 10) rn.length) with
        | some fb =>
          obtain ⟨hb1, hb2, hb3, hb4⟩ := findCharSkipWildcard_spec rn _ ri _ fb hfb
          have hbne : fb ≠ ri := by
            intro hcontra
            rw [hcontra] at hb3
            exact heq hb3
          simp only [hfa, hfb] at h
          cases h
          exact ⟨by omega, by omega, by omega, by omega, by omega, Nat.le_refl _⟩
        | none =>
          simp only [hfa, hfb] at h
          cases h
          exact ⟨by omega, by omega, by omega, by omega, by omega, by omega⟩

lemma mww_step_measure (rn tn torig : List Char) (tm : List Nat) (ri ti : Nat)
    (e : List Segment) (ri2 ti2 : Nat)
    (h : mww_step rn tn torig tm ri ti = StepRes.cont e ri2 ti2) :
    (rn.length - ri2) + (tn.length - ti2) < (rn.length - ri) + (tn.length - ti) := by
  obtain ⟨p1, p2, p3, p4, p5, p6⟩ := mww_step_progress rn tn torig tm ri ti e ri2 ti2 h
  omega

/-! ## Transcription-side text through the loop -/

lemma mww_step_transText_done (rn tn torig : List Char) (tm : List Nat) (ri ti : Nat)
    (e : List Segment)
    (hlen : tm.length = tn.length)
    (h : mww_step rn tn torig tm ri ti = StepRes.done e) :
    transText e = get_trans_text torig tm ti tn.length := by
  unfold mww_step at h
  by_cases h1 : rn.length ≤ ri
  · rw [if_pos h1] at h
    cases h
    exact transText_emitIf _ _ (by decide)
  rw [if_neg h1] at h
  by_cases h2 : tn.length ≤ ti
  · rw [if_pos h2] at h
    cases h
    rw [get_trans_text_of_le torig tm ti tn.length (by omega)]
    exact transText_emitIf_delete _
  rw [if_neg h2] at h
  by_cases hw : rn.getD ri ' ' = '*'
  · rw [if_pos hw] at h
    by_cases h3 : rn.length ≤ skipWildcards rn (ri + 1)
    · rw [if_pos h3] at h
      cases h
      exact transText_emitIf _ _ (by decide)
    · rw [if_neg h3] at h
      cases hf : findCharFrom tn (rn.getD (skipWildcards rn (ri + 1)) ' ') ti tn.length with
      | none => simp only [hf] at h; exact absurd h (by simp)
      | some fi =>
        simp only [hf] at h
        by_cases h4 : fi = ti
        · rw [if_pos h4] at h; exact absurd h (by simp)
        · rw [if_neg h4] at h; exact absurd h (by simp)
  · rw [if_neg hw] at h
    by_cases heq : rn.getD ri ' ' = tn.getD ti ' '
    · rw [if_pos heq] at h; exact absurd h (by simp)
    · rw [if_neg heq] at h
      cases hfa : findCharFrom tn (rn.getD ri ' ') ti (min (ti + 10) tn.length) with
      | some fa =>
        cases hfb : findCharSkipWildcard rn (tn.getD ti ' ') ri (min (ri + 10) rn.length) with
        | none => simp only [hfa, hfb] at h; exact absurd h (by simp)
        | some fb =>
          simp only [hfa, hfb] at h
          by_cases h5 : fa - ti ≤ fb - ri
          · rw [if_pos h5] at h; exact absurd h (by simp)
          · rw [if_neg h5] at h; exact absurd h (by simp)
      | none =>
        cases hfb : findCharSkipWildcard rn (tn.getD ti ' ') ri (min (ri + 10) rn.length) with
        | some fb => simp only [hfa, hfb] at h; exact absurd h (by simp)
        | none => simp only [hfa, hfb] at h; exact absurd h (by simp)

lemma mww_step_transText_cont (rn tn torig : List Char) (tm : List Nat) (ri ti : Nat)
    (e : List Segment) (ri2 ti2 : Nat)
    (hlen : tm.length = tn.length)
    (hmono : tm.Pairwise (· < ·)) (hbound : ∀ j ∈ tm, j < torig.length)
    (h : mww_step rn tn torig tm ri ti = StepRes.cont e ri2 ti2) :
    transText e ++ get_trans_text torig tm ti2 tn.length =
      get_trans_text torig tm ti tn.length := by
  unfold mww_step at h
  by_cases h1 : rn.length ≤ ri
  · rw [if_pos h1] at h; exact absurd h (by simp)
  rw [if_neg h1] at h
  by_cases h2 : tn.length ≤ ti
  · rw [if_pos h2] at h; exact absurd h (by simp)
  rw [if_neg h2] at h
  by_cases hw : rn.getD ri ' ' = '*'
  · rw [if_pos hw] at h
    by_cases h3 : rn.length ≤ skipWildcards rn (ri + 1)
    · rw [if_pos h3] at h; exact absurd h (by simp)
    rw [if_neg h3] at h
    cases hf : findCharFrom tn (rn.getD (skipWildcards rn (ri + 1)) ' ') ti tn.length with
    | none =>
      simp only [hf] at h
      cases h
      rw [transText_emitIf _ _ (by decide),
        get_trans_text_of_le torig tm tn.length tn.length (by omega), List.append_nil]
    | some fi =>
      simp only [hf] at h
      obtain ⟨hf1, hf2, hf3⟩ := findCharFrom_spec tn _ ti tn.length fi hf
      by_cases h4 : fi = ti
      · rw [if_pos h4] at h
        cases h
        rw [transText_nil, List.nil_append]
      · rw [if_neg h4] at h
        cases h
        rw [transText_emitIf _ _ (by decide)]
        exact get_trans_text_append torig tm ti _ tn.length hf1 (by omega) hmono hbound
  · rw [if_neg hw] at h
    by_cases heq : rn.getD ri ' ' = tn.getD ti ' '
    · rw [if_pos heq] at h
      cases h
      rw [transText_emitIf _ _ (by decide)]
      exact get_trans_text_append torig tm ti (ti + 1) tn.length (by omega) (by omega) hmono hbound
    · rw [if_neg heq] at h
      cases hfa : findCharFrom tn (rn.getD ri ' ') ti (min (ti + 10) tn.length) with
      | some fa =>
        obtain ⟨ha1, ha2, ha3⟩ := findCharFrom_spec tn _ ti _ fa hfa
        cases hfb : findCharSkipWildcard rn (tn.getD ti ' ') ri (min (ri + 10) rn.length) with
        | none =>
          simp only [hfa, hfb] at h
          cases h
          rw [transText_emitIf _ _ (by decide)]
          exact get_trans_text_append torig tm ti _ tn.length ha1 (by omega) hmono hbound
        | some fb =>
          simp only [hfa, hfb] at h
          by_cases h5 : fa - ti ≤ fb - ri
          · rw [if_pos h5] at h
            cases h
            rw [transText_emitIf _ _ (by decide)]
            exact get_trans_text_append torig tm ti _ tn.length ha1 (by omega) hmono hbound
          · rw [if_neg h5] at h
            cases h
            rw [transText_emitIf_delete, List.nil_append]
      | none =>
        cases hfb : findCharSkipWildcard rn (tn.getD ti ' ') ri (min (ri + 10) rn.length) with
        | some fb =>
          simp only [hfa, hfb] at h
          cases h
          rw [transText_emitIf_delete, List.nil_append]
        | none =>
          simp only [hfa, hfb] at h
          cases h
          rw [transText_cons, transText_single_delete, List.nil_append,
            transText_emitIf _ _ (by decide)]
          exact get_trans_text_append torig tm ti (ti + 1) tn.length (by omega) (by omega)
            hmono hbound

lemma mww_loopF_transText (rn tn torig : List Char) (tm : List Nat)
    (hlen : tm.length = tn.length) (hmono : tm.Pairwise (· < ·))
    (hbound : ∀ j ∈ tm, j < torig.length) :
    ∀ (fuel ri ti : Nat), (rn.length - ri) + (tn.length - ti) < fuel →
      transText (mww_loopF rn tn torig tm fuel ri ti) =
        get_trans_text torig tm ti tn.length := by
  intro fuel
  induction fuel with
  | zero => intro ri ti hf; omega
  | succ f ih =>
    intro ri ti hf
    simp only [mww_loopF]
    by_cases hguard : ri < rn.length ∨ ti < tn.length
    · rw [if_pos hguard]
      cases hs : mww_step rn tn torig tm ri ti with
      | done e =>
        exact mww_step_transText_done rn tn torig tm ri ti e hlen hs
      | cont e ri2 ti2 =>
        rw [transText_append]
        have hm := mww_step_measure rn tn torig tm ri ti e ri2 ti2 hs
        rw [ih ri2 ti2 (by omega)]
        exact mww_step_transText_cont rn tn torig tm ri ti e ri2 ti2 hlen hmono hbound hs
    · rw [if_neg hguard, transText_nil,
        get_trans_text_of_le torig tm ti tn.length (by omega)]

lemma mww_loopF_fuel_irrel (rn tn torig : List Char) (tm : List Nat) :
    ∀ (f1 f2 ri ti : Nat),
      (rn.length - ri) + (tn.length - ti) < f1 →
      (rn.length - ri) + (tn.length - ti) < f2 →
      mww_loopF rn tn torig tm f1 ri ti = mww_loopF rn tn torig tm f2 ri ti := by
  intro f1
  induction f1 with
  | zero => intro f2 ri ti h1 h2; omega
  | succ f ih =>
    intro f2 ri ti h1 h2
    cases f2 with
    | zero => omega
    | succ g =>
      simp only [mww_loopF]
      by_cases hguard : ri < rn.length ∨ ti < tn.length
      · rw [if_pos hguard, if_pos hguard]
        cases hs : mww_step rn tn torig tm ri ti with
        | done e => rfl
        | cont e ri2 ti2 =>
          dsimp only
          have hm := mww_step_measure rn tn torig tm ri ti e ri2 ti2 hs
          rw [ih g ri2 ti2 (by omega) (by omega)]
      · rw [if_neg hguard, if_neg hguard]

/-! ## `compute_diff`-level helpers -/

lemma compute_diff_main_eq (r t : List Char)
    (hrn : (normalize_with_mapping r true).1 ≠ [])
    (htn : (normalize_with_mapping t false).1 ≠ []) :
    compute_diff r t =
      match_with_wildcard (normalize_with_mapping r true).1
        (normalize_with_mapping t false).1 t (normalize_with_mapping t false).2 := by
  have hr : r ≠ [] := by intro hcontra; subst hcontra; exact hrn rfl
  have ht : t ≠ [] := by intro hcontra; subst hcontra; exact htn rfl
  simp only [compute_diff]
  rw [if_neg (by simp [hr, ht]), if_neg (fun hcontra => hrn hcontra.1), if_neg hrn, if_neg htn]

lemma transText_compute_diff (r t : List Char)
    (hrn : (normalize_with_mapping r true).1 ≠ [])
    (htn : (normalize_with_mapping t false).1 ≠ []) :
    transText (compute_diff r t) =
      get_trans_text t (normalize_with_mapping t false).2 0
        (normalize_with_mapping t false).1.length := by
  rw [compute_diff_main_eq r t hrn htn]
  unfold match_with_wildcard
  rw [merge_transText]
  exact mww_loopF_transText _ _ _ _ (normalize_len t false) (normalize_pairwise t false)
    (normalize_bound t false) _ 0 0 (by omega)

lemma transText_compute_diff_drop (r t : List Char)
    (hrn : (normalize_with_mapping r true).1 ≠ [])
    (htn : (normalize_with_mapping t false).1 ≠ []) :
    transText (compute_diff r t) =
      t.drop ((normalize_with_mapping t false).2.getD 0 0) := by
  rw [transText_compute_diff r t hrn htn]
  have hlen := normalize_len t false
  have h0 : 0 < (normalize_with_mapping t false).2.length := by
    rw [hlen]; exact List.length_pos.mpr htn
  rw [show (normalize_with_mapping t false).1.length =
      (normalize_with_mapping t false).2.length from hlen.symm]
  exact get_trans_text_full t _ h0

lemma compute_diff_cases (r t : List Char) :
    compute_diff r t = [] ∨
    (∃ s, s ≠ [] ∧ (compute_diff r t = [⟨SegKind.insert, s⟩] ∨
      compute_diff r t = [⟨SegKind.delete, s⟩])) ∨
    (∃ l, compute_diff r t = merge_segments l) := by
  simp only [compute_diff]
  by_cases h1 : r = [] ∨ t = []
  · rw [if_pos h1]; exact Or.inl rfl
  rw [if_neg h1]
  by_cases h2 : (normalize_with_mapping r true).1 = [] ∧ (normalize_with_mapping t false).1 = []
  · rw [if_pos h2]; exact Or.inl rfl
  rw [if_neg h2]
  by_cases h3 : (normalize_with_mapping r true).1 = []
  · rw [if_pos h3]
    refine Or.inr (Or.inl ⟨t, ?_, Or.inl rfl⟩)
    intro hcontra
    exact h1 (Or.inr hcontra)
  rw [if_neg h3]
  by_cases h4 : (normalize_with_mapping t false).1 = []
  · rw [if_pos h4]
    by_cases h5 : (normalize_with_mapping r true).1.filter (fun c => decide (c ≠ '*')) = []
    · rw [if_pos h5]; exact Or.inl rfl
    · rw [if_neg h5]; exact Or.inr (Or.inl ⟨_, h5, Or.inr rfl⟩)
  rw [if_neg h4]
  exact Or.inr (Or.inr ⟨_, rfl⟩)

lemma compute_diff_good (r t : List Char) :
    (∀ g ∈ compute_diff r t, g.text ≠ []) ∧
    (compute_diff r t).Chain' (fun a b => a.kind ≠ b.kind) := by
  rcases compute_diff_cases r t with h | ⟨s, hne, h | h⟩ | ⟨l, h⟩ <;> rw [h]
  · exact ⟨by simp, by simp⟩
  · refine ⟨?_, by simp⟩
    intro g hg
    rw [List.mem_singleton.mp hg]
    exact hne
  · refine ⟨?_, by simp⟩
    intro g hg
    rw [List.mem_singleton.mp hg]
    exact hne
  · exact ⟨merge_segmentsAux_text_ne_nil l [] (by simp), merge_segmentsAux_chain l [] (by simp)⟩

lemma compute_diff_merge_fix (r t : List Char) :
    merge_segments (compute_diff r t) = compute_diff r t := by
  obtain ⟨h1, h2⟩ := compute_diff_good r t
  exact merge_segments_of_good _ h1 h2

lemma take_filter_ne_nil (rn : List Char) (ri fb : Nat) (hri : ri < rn.length)
    (hlt : ri < fb) (hw : rn.getD ri ' ' ≠ '*') :
    ((rn.drop ri).take (fb - ri)).filter (fun c => decide (c ≠ '*')) ≠ [] := by
  have hdrop : rn.drop ri = rn.getD ri ' ' :: rn.drop (ri + 1) := by
    rw [List.getD_eq_getElem rn ' ' hri]
    exact List.drop_eq_getElem_cons hri
  rw [hdrop, show fb - ri = (fb - ri - 1) + 1 by omega, List.take_succ_cons,
    List.filter_cons_of_pos (by simpa [List.getD] using hw)]
  simp

/-! ## Claim theorems -/

/-- C3: for every transcription, `compute_diff("", transcription)` returns the empty
list, and for every reference, `compute_diff(reference, "")` returns the empty list,
independent of the other argument's content. -/
theorem C3_empty_input_short_circuit :
    ∀ (reference transcription : List Char),
      compute_diff [] transcription = [] ∧ compute_diff reference [] = [] := by
  intro r t
  constructor
  · simp [compute_diff]
  · simp [compute_diff]

/-- C8: for every input string and either value of `keep_wildcards`,
`normalize_with_mapping` returns a normalized text and an offset mapping of equal
length; the normalized text is exactly the subsequence of characters that are
matchable (plus `'*'` when wildcards are kept), in original order; the mapping is
strictly increasing, every entry is a valid index of the original, and indexing
the original at `mapping[i]` recovers `normalized[i]`. -/
theorem C8_normalize_invariants :
    ∀ (text : List Char) (keep_wildcards : Bool),
      (normalize_with_mapping text keep_wildcards).1 = text.filter (kept keep_wildcards) ∧
      (normalize_with_mapping text keep_wildcards).2.length =
        (normalize_with_mapping text keep_wildcards).1.length ∧
      (normalize_with_mapping text keep_wildcards).2.Pairwise (· < ·) ∧
      (normalize_with_mapping text keep_wildcards).2.all
        (fun j => decide (j < text.length)) = true ∧
      (normalize_with_mapping text keep_wildcards).2.map (fun j => text.getD j ' ') =
        (normalize_with_mapping text keep_wildcards).1 := by
  intro text kw
  refine ⟨normalize_fst text kw, normalize_len text kw, normalize_pairwise text kw, ?_,
    normalize_mapback text kw⟩
  rw [List.all_eq_true]
  intro j hj
  simpa using normalize_bound text kw j hj

/-- C2: for every pair of inputs, no two adjacent segments of `compute_diff` share a
kind, every returned segment has non-empty text, and re-running the merge step on
the returned sequence is a no-op. -/
theorem C2_merge_normal_form :
    ∀ (reference transcription : List Char),
      (compute_diff reference transcription).Chain' (fun a b => a.kind ≠ b.kind) ∧
      (compute_diff reference transcription).all (fun g => !g.text.isEmpty) = true ∧
      merge_segments (compute_diff reference transcription) =
        compute_diff reference transcription := by
  intro r t
  obtain ⟨h1, h2⟩ := compute_diff_good r t
  refine ⟨h2, ?_, compute_diff_merge_fix r t⟩
  rw [List.all_eq_true]
  intro g hg
  have := h1 g hg
  simpa [List.isEmpty_iff] using this

/-- C6 counterexample: on `("a*b", "axyzb")` the code does not return the three
segments `[{equal:"a"}, {equal:"xyz"}, {equal:"b"}]` claimed — the merge pass
concatenates adjacent `equal` segments. -/
theorem C6_counterexample :
    compute_diff "a*b".toList "axyzb".toList ≠
      [⟨SegKind.equal, "a".toList⟩, ⟨SegKind.equal, "xyz".toList⟩,
        ⟨SegKind.equal, "b".toList⟩] := by
  decide

/-- C6 (amended): `compute_diff("a*b", "axyzb")` returns the single merged segment
`[{equal:"axyzb"}]`, and `compute_diff("hello*", "hello world")` returns
`[{equal:"hello world"}]` (the wildcard consumes the remainder, and adjacent
`equal` segments are merged into one). -/
theorem C6_wildcard_examples_amended :
    compute_diff "a*b".toList "axyzb".toList = [⟨SegKind.equal, "axyzb".toList⟩] ∧
    compute_diff "hello*".toList "hello world".toList =
      [⟨SegKind.equal, "hello world".toList⟩] :=
  ⟨by decide, by decide⟩

/-- C7 counterexample: `compute_diff("", "a")` returns `[]` by the empty-input
short-circuit although the transcription's normalized view `"a"` is non-empty,
so an empty diff does not imply that both normalized views are empty. -/
theorem C7_counterexample :
    ¬ (compute_diff [] ['a'] = [] →
        ((normalize_with_mapping [] true).1.filter (fun c => decide (c ≠ '*')) = [] ∧
          (normalize_with_mapping ['a'] false).1 = [])) := by
  decide

/-- C7 (amended): for non-empty string inputs, if `compute_diff` returns the empty
list then the reference's normalized view with wildcards stripped is empty and the
transcription's normalized view is empty. -/
theorem C7_empty_result_amended (reference transcription : List Char)
    (hr : reference ≠ []) (ht : transcription ≠ [])
    (h : compute_diff reference transcription = []) :
    (normalize_with_mapping reference true).1.filter (fun c => decide (c ≠ '*')) = [] ∧
    (normalize_with_mapping transcription false).1 = [] := by
  by_cases h3 : (normalize_with_mapping reference true).1 = []
  · by_cases h4 : (normalize_with_mapping transcription false).1 = []
    · exact ⟨by rw [h3]; rfl, h4⟩
    · exfalso
      have heq : compute_diff reference transcription = [⟨SegKind.insert, transcription⟩] := by
        simp only [compute_diff]
        rw [if_neg (by simp [hr, ht]), if_neg (fun hc => h4 hc.2), if_pos h3]
      rw [heq] at h
      exact absurd h (by simp)
  · by_cases h4 : (normalize_with_mapping transcription false).1 = []
    · by_cases h5 :
          (normalize_with_mapping reference true).1.filter (fun c => decide (c ≠ '*')) = []
      · exact ⟨h5, h4⟩
      · exfalso
        have heq : compute_diff reference transcription =
            [⟨SegKind.delete,
              (normalize_with_mapping reference true).1.filter (fun c => decide (c ≠ '*'))⟩] := by
          simp only [compute_diff]
          rw [if_neg (by simp [hr, ht]), if_neg (fun hc => h3 hc.1), if_neg h3, if_pos h4,
            if_neg h5]
        rw [heq] at h
        exact absurd h (by simp)
    · exfalso
      have htt := transText_compute_diff reference transcription h3 h4
      rw [h, transText_nil] at htt
      have h0 : 0 < (normalize_with_mapping transcription false).2.length := by
        rw [normalize_len]; exact List.length_pos.mpr h4
      have hnn := get_trans_text_ne_nil transcription
        (normalize_with_mapping transcription false).2
        (normalize_pairwise transcription false) (normalize_bound transcription false)
        0 (normalize_with_mapping transcription false).1.length h0 (List.length_pos.mpr h4)
      exact hnn htt.symm

theorem C7_empty_result_amended_witness :
    (normalize_with_mapping ['.'] true).1.filter (fun c => decide (c ≠ '*')) = [] ∧
    (normalize_with_mapping ['.'] false).1 = [] :=
  C7_empty_result_amended ['.'] ['.'] (by decide) (by decide) (by decide)

/-- C1: whenever the aligner runs (both normalized views non-empty), the
concatenated `text` of the `equal`/`insert` segments of `compute_diff` equals the
rendering of the full transcription-side span `[0, len)` through `get_trans_text`
(the offset-mapping resolution rule), and is a subsequence of the original
transcription string. -/
theorem C1_format_preservation (reference transcription : List Char)
    (hrn : (normalize_with_mapping reference true).1 ≠ [])
    (htn : (normalize_with_mapping transcription false).1 ≠ []) :
    transText (compute_diff reference transcription) =
      get_trans_text transcription (normalize_with_mapping transcription false).2 0
        (normalize_with_mapping transcription false).1.length ∧
    (transText (compute_diff reference transcription)).Sublist transcription := by
  refine ⟨transText_compute_diff reference transcription hrn htn, ?_⟩
  rw [transText_compute_diff_drop reference transcription hrn htn]
  exact List.drop_sublist ..

theorem C1_format_preservation_witness :
    transText (compute_diff ['a'] ['a', '!']) =
      get_trans_text ['a', '!'] (normalize_with_mapping ['a', '!'] false).2 0
        (normalize_with_mapping ['a', '!'] false).1.length ∧
    (transText (compute_diff ['a'] ['a', '!'])).Sublist ['a', '!'] :=
  C1_format_preservation ['a'] ['a', '!'] (by decide) (by decide)

/-- C10: when both normalized views are non-empty, the concatenation of all
`equal` and `insert` segment texts of `compute_diff` equals exactly
`trans_original[trans_mapping[0]:]`, the suffix of the original transcription
starting at its first matchable character. -/
theorem C10_alignment_covers_suffix (reference transcription : List Char)
    (hrn : (normalize_with_mapping reference true).1 ≠ [])
    (htn : (normalize_with_mapping transcription false).1 ≠ []) :
    transText (compute_diff reference transcription) =
      transcription.drop ((normalize_with_mapping transcription false).2.getD 0 0) :=
  transText_compute_diff_drop reference transcription hrn htn

theorem C10_alignment_covers_suffix_witness :
    transText (compute_diff ['a'] [' ', 'a']) =
      [' ', 'a'].drop ((normalize_with_mapping [' ', 'a'] false).2.getD 0 0) :=
  C10_alignment_covers_suffix ['a'] [' ', 'a'] (by decide) (by decide)

/-- C9: the aligner is total — every `cont` outcome of the loop body strictly
increases `ref_idx + trans_idx`, and consequently the fuelled loop's result is
independent of the fuel once it exceeds `ref_len + trans_len` (the loop
terminates and returns a result for every pair of inputs). -/
theorem C9_totality (rn tn torig : List Char) (tm : List Nat) :
    (∀ (ri ti : Nat) (e : List Segment) (ri2 ti2 : Nat),
      mww_step rn tn torig tm ri ti = StepRes.cont e ri2 ti2 → ri + ti < ri2 + ti2) ∧
    (∀ f1 f2 : Nat, rn.length + tn.length < f1 → rn.length + tn.length < f2 →
      mww_loopF rn tn torig tm f1 0 0 = mww_loopF rn tn torig tm f2 0 0) := by
  constructor
  · intro ri ti e ri2 ti2 h
    exact (mww_step_progress rn tn torig tm ri ti e ri2 ti2 h).2.2.1
  · intro f1 f2 h1 h2
    exact mww_loopF_fuel_irrel rn tn torig tm f1 f2 0 0 (by omega) (by omega)

theorem C9_totality_witness :
    (0 : Nat) + 0 < 0 + 1 ∧
      mww_loopF ['a'] ['a'] ['a'] [0] 3 0 0 = mww_loopF ['a'] ['a'] ['a'] [0] 4 0 0 :=
  ⟨(C9_totality ['a', 'b'] ['x', 'a'] ['x', 'a'] [0, 1]).1 0 0
      [⟨SegKind.insert, ['x']⟩] 0 1 (by decide),
    (C9_totality ['a'] ['a'] ['a'] [0]).2 3 4 (by decide) (by decide)⟩

/-- C4: at a non-wildcard mismatch, the aligner searches exactly 10 characters
ahead in each sequence (skipping wildcards in the reference); if the reference
character is found in the transcription window at `fa` and either the reference
window search fails or `fa - trans_idx ≤ fb - ref_idx`, it emits the span
`[trans_idx, fa)` as a single `Insert` and advances `trans_idx` to `fa`;
otherwise if the transcription character is found at `fb` it emits
`[ref_idx, fb)` with wildcards stripped as a `Delete` and advances `ref_idx` to
`fb`; otherwise it emits a one-character `Delete` and a one-character `Insert`
and advances both cursors by one. -/
theorem C4_mismatch_window (rn tn torig : List Char) (tm : List Nat) (ri ti : Nat)
    (hlen : tm.length = tn.length) (hmono : tm.Pairwise (· < ·))
    (hbound : ∀ j ∈ tm, j < torig.length)
    (hri : ri < rn.length) (hti : ti < tn.length)
    (hw : rn.getD ri ' ' ≠ '*') (hne : rn.getD ri ' ' ≠ tn.getD ti ' ') :
    (∀ fa, findCharFrom tn (rn.getD ri ' ') ti (min (ti + 10) tn.length) = some fa →
      (findCharSkipWildcard rn (tn.getD ti ' ') ri (min (ri + 10) rn.length) = none ∨
        ∃ fb, findCharSkipWildcard rn (tn.getD ti ' ') ri (min (ri + 10) rn.length) = some fb ∧
          fa - ti ≤ fb - ri) →
      mww_step rn tn torig tm ri ti =
        StepRes.cont [⟨SegKind.insert, get_trans_text torig tm ti fa⟩] ri fa ∧
      get_trans_text torig tm ti fa ≠ []) ∧
    (∀ fb, findCharSkipWildcard rn (tn.getD ti ' ') ri (min (ri + 10) rn.length) = some fb →
      (findCharFrom tn (rn.getD ri ' ') ti (min (ti + 10) tn.length) = none ∨
        ∃ fa, findCharFrom tn (rn.getD ri ' ') ti (min (ti + 10) tn.length) = some fa ∧
          ¬ fa - ti ≤ fb - ri) →
      mww_step rn tn torig tm ri ti =
        StepRes.cont [⟨SegKind.delete,
          ((rn.drop ri).take (fb - ri)).filter (fun c => decide (c ≠ '*'))⟩] fb ti ∧
      ((rn.drop ri).take (fb - ri)).filter (fun c => decide (c ≠ '*')) ≠ []) ∧
    (findCharFrom tn (rn.getD ri ' ') ti (min (ti + 10) tn.length) = none →
      findCharSkipWildcard rn (tn.getD ti ' ') ri (min (ri + 10) rn.length) = none →
      mww_step rn tn torig tm ri ti =
        StepRes.cont [⟨SegKind.delete, [rn.getD ri ' ']⟩,
          ⟨SegKind.insert, get_trans_text torig tm ti (ti + 1)⟩] (ri + 1) (ti + 1) ∧
      get_trans_text torig tm ti (ti + 1) ≠ []) := by
  have hti2 : ti < tm.length := by omega
  refine ⟨?_, ?_, ?_⟩
  · intro fa hfa htie
    obtain ⟨ha1, ha2, ha3⟩ := findCharFrom_spec tn _ ti _ fa hfa
    have hfagt : ti < fa := by
      rcases Nat.eq_or_lt_of_le ha1 with heqq | hlt
      · exfalso; rw [← heqq] at ha3; exact hne ha3.symm
      · exact hlt
    have htext : get_trans_text torig tm ti fa ≠ [] :=
      get_trans_text_ne_nil torig tm hmono hbound ti fa hti2 hfagt
    refine ⟨?_, htext⟩
    unfold mww_step
    rw [if_neg (by omega), if_neg (by omega), if_neg hw, if_neg hne]
    rcases htie with hb | ⟨fb, hfb, htie⟩
    · simp only [hfa, hb]
      unfold emitIf
      rw [if_neg htext]
    · simp only [hfa, hfb]
      rw [if_pos htie]
      unfold emitIf
      rw [if_neg htext]
  · intro fb hfb hcase
    obtain ⟨hb1, hb2, hb3, hb4⟩ := findCharSkipWildcard_spec rn _ ri _ fb hfb
    have hfbgt : ri < fb := by
      rcases Nat.eq_or_lt_of_le hb1 with heqq | hlt
      · exfalso; rw [← heqq] at hb3; exact hne hb3
      · exact hlt
    have htext : ((rn.drop ri).take (fb - ri)).filter (fun c => decide (c ≠ '*')) ≠ [] :=
      take_filter_ne_nil rn ri fb hri hfbgt hw
    refine ⟨?_, htext⟩
    unfold mww_step
    rw [if_neg (by omega), if_neg (by omega), if_neg hw, if_neg hne]
    rcases hcase with ha | ⟨fa, hfa, hnotie⟩
    · simp only [ha, hfb]
      unfold emitIf
      rw [if_neg htext]
    · simp only [hfa, hfb]
      rw [if_neg hnotie]
      unfold emitIf
      rw [if_neg htext]
  · intro ha hb
    have htext : get_trans_text torig tm ti (ti + 1) ≠ [] :=
      get_trans_text_ne_nil torig tm hmono hbound ti (ti + 1) hti2 (by omega)
    refine ⟨?_, htext⟩
    unfold mww_step
    rw [if_neg (by omega), if_neg (by omega), if_neg hw, if_neg hne]
    simp only [ha, hb]
    unfold emitIf
    rw [if_neg htext]

theorem C4_mismatch_window_witness :
    mww_step ['a', 'b'] ['x', 'a'] ['x', 'a'] [0, 1] 0 0 =
      StepRes.cont [⟨SegKind.insert, get_trans_text ['x', 'a'] [0, 1] 0 1⟩] 0 1 ∧
    get_trans_text ['x', 'a'] [0, 1] 0 1 ≠ [] :=
  (C4_mismatch_window ['a', 'b'] ['x', 'a'] ['x', 'a'] [0, 1] 0 0 (by decide) (by decide)
    (by decide) (by decide) (by decide) (by decide) (by decide)).1 1 (by decide)
    (Or.inl (by decide))

/-- C5: when the current reference character is a wildcard, the wildcard run is
skipped to the next literal reference character (`skipWildcards`, with the
positions in between all `'*'` and the landing position a literal), the
transcription is searched from `trans_idx` to its end (unbounded) for that
literal, and if the first occurrence is at `trans_idx` itself the wildcard
contributes no text: the step emits nothing, `ref_idx` jumps past the run,
`trans_idx` is unchanged, and the loop simply continues from the new state. -/
theorem C5_wildcard_zero_width (rn tn torig : List Char) (tm : List Nat) (ri ti : Nat)
    (hri : ri < rn.length) (hti : ti < tn.length)
    (hw : rn.getD ri ' ' = '*')
    (hnri : skipWildcards rn (ri + 1) < rn.length)
    (hfound : findCharFrom tn (rn.getD (skipWildcards rn (ri + 1)) ' ') ti tn.length = some ti) :
    mww_step rn tn torig tm ri ti = StepRes.cont [] (skipWildcards rn (ri + 1)) ti ∧
    (∀ j, ri + 1 ≤ j → j < skipWildcards rn (ri + 1) → rn.getD j ' ' = '*') ∧
    rn.getD (skipWildcards rn (ri + 1)) ' ' ≠ '*' ∧
    (∀ fuel, mww_loopF rn tn torig tm (fuel + 1) ri ti =
      mww_loopF rn tn torig tm fuel (skipWildcards rn (ri + 1)) ti) := by
  have hstep : mww_step rn tn torig tm ri ti =
      StepRes.cont [] (skipWildcards rn (ri + 1)) ti := by
    unfold mww_step
    rw [if_neg (by omega), if_neg (by omega), if_pos hw, if_neg (by omega)]
    simp only [hfound]
    simp
  refine ⟨hstep, fun j h1 h2 => skipWildcards_wild rn (ri + 1) j h1 h2,
    skipWildcards_stop rn (ri + 1) hnri, ?_⟩
  intro fuel
  simp only [mww_loopF]
  rw [if_pos (Or.inl hri)]
  simp only [hstep]
  rw [List.nil_append]

theorem C5_wildcard_zero_width_witness :
    mww_step ['*', 'a'] ['a'] ['a'] [0] 0 0 =
      StepRes.cont [] (skipWildcards ['*', 'a'] (0 + 1)) 0 :=
  (C5_wildcard_zero_width ['*', 'a'] ['a'] ['a'] [0] 0 0 (by decide) (by decide) (by decide)
    (by decide) (by decide)).1

end VoiceDiff
